import Mathlib

/-!
Verification of the blueye-ts client library (shallow embedding).

The development embeds, in Lean, the parts of the repository that the
checked properties are about:

* `src/src/async-queue.ts` — the `AsyncQueue` promise chain, embedded twice:
  a denotational model (`enqueueAll`) of the settlement values produced by
  `enqueue`, and a small-step transition system (`QStep`/`QReach`) for the
  temporal ordering of task starts and settlements under a nondeterministic
  scheduler.
* `src/unnamed/part_001` (`client.ts` variant) — the session state machine
  (`connect`/`disconnect`), the reply handling of `sendRequest`, and the
  envelope handling of `getTelemetry`.  The network reply is passed in as an
  explicit argument; the externally supplied message registry
  (`blueye.protocol`) is an abstract `Registry` parameter, per the design
  document which treats it as an opaque lookup table.
* `src/unnamed/part_003` (binlog decoder) — `parseMessages` over the
  decompressed byte buffer (varint length prefix reading as implemented by
  `BinaryReader.uint32` of `@bufbuild/protobuf/wire`, frame slicing, per-frame
  envelope resolution, one level of nested-envelope resolution) and
  `fixMessageTimes`.

JS numbers holding millisecond timestamps are embedded as `Int`; byte buffers
as `List Nat` with `Uint8Array` reads masked modulo 256 as JS bitwise
operators do.
-/

deriving instance DecidableEq for Except

namespace Blueye

/-! ### Promise outcomes

`Outcome` is the settlement of a JS promise: fulfilled with a value or
rejected with a reason.  Values and reasons are abstracted as numerals. -/

inductive Outcome where
  | ok (v : Nat)
  | err (e : Nat)
deriving DecidableEq

/-! ### AsyncQueue, denotational model (src/src/async-queue.ts)

```ts
export class AsyncQueue {
  private lastPromise: Promise<unknown> = Promise.resolve();
  enqueue<T>(fn: () => Promise<T>): Promise<T> {
    const run = this.lastPromise.then(() => fn());
    this.lastPromise = run.finally(() => {});
    return run;
  }
}
```

`promThen prev t` is the settlement of `prev.then(() => fn())` when `fn`'s
promise would settle as `t`: if `prev` is fulfilled the callback runs (first
component `true`) and the result assimilates `fn`'s promise; if `prev` is
rejected the callback is never invoked and the rejection propagates.
`finallyNoop` is `p.finally(() => {})`, which re-delivers the settlement of
`p` unchanged (an empty `finally` callback neither swallows a rejection nor
alters a value). -/

def promThen (prev : Outcome) (t : Outcome) : Bool × Outcome :=
  match prev with
  | .ok _ => (true, t)
  | .err e => (false, .err e)

def finallyNoop (o : Outcome) : Outcome := o

/-- One `enqueue` call per task: `last` is the current `lastPromise`; each
task is represented by the settlement its own body would produce.  Returns,
per task in submission order, whether its function body was invoked and how
the promise returned by `enqueue` settles. -/
def enqueueGo (last : Outcome) : List Outcome → List (Bool × Outcome)
  | [] => []
  | t :: ts =>
    let r := promThen last t
    r :: enqueueGo (finallyNoop r.2) ts

/-- All tasks enqueued on a fresh `AsyncQueue`, whose `lastPromise` starts as
`Promise.resolve()`. -/
def enqueueAll (tasks : List Outcome) : List (Bool × Outcome) :=
  enqueueGo (Outcome.ok 0) tasks

/-! ### AsyncQueue, temporal model

The chain built by `n` calls to `enqueue` is: `run i` is
`lastPromise (i-1) .then (fn i)` and `lastPromise i = run i |>.finally noop`.
Under the JS event loop this yields, per task `i`, three possible atomic
events, each gated on the settlement of the chain so far:

* `start i` — the `.then` continuation fires because `lastPromise (i-1)` was
  *fulfilled*; task `i`'s body begins to run;
* `settle i` — task `i`'s promise settles (with task `i`'s own outcome),
  settling `run i`;
* `propagate i` — the `.then` continuation observes `lastPromise (i-1)`
  *rejected*; the body is never invoked and `run i` rejects with the same
  reason.

The scheduler is nondeterministic: any enabled event may fire. -/

inductive Phase where
  | idle
  | running
  | done
  | skip
deriving DecidableEq

inductive QEvent where
  | start (i : Nat)
  | settle (i : Nat)
  | propagate (i : Nat)
deriving DecidableEq

/-- Tasks submitted in index order: `n` of them; `outcome i` is the settlement task
`i`'s own body would produce if it runs. -/
structure ChainSys where
  n : Nat
  outcome : Nat → Outcome

def updPhase (ph : Nat → Phase) (i : Nat) (p : Phase) : Nat → Phase :=
  fun k => if k = i then p else ph k

inductive QStep (sys : ChainSys) : (Nat → Phase) → QEvent → (Nat → Phase) → Prop where
  | start (ph : Nat → Phase) (i : Nat) (hi : i < sys.n) (hidle : ph i = .idle)
      (hprev : i = 0 ∨ ∃ j v, i = j + 1 ∧ ph j = .done ∧ sys.outcome j = .ok v) :
      QStep sys ph (.start i) (updPhase ph i .running)
  | settle (ph : Nat → Phase) (i : Nat) (hrun : ph i = .running) :
      QStep sys ph (.settle i) (updPhase ph i .done)
  | propagate (ph : Nat → Phase) (i j : Nat) (hij : i = j + 1) (hi : i < sys.n)
      (hidle : ph i = .idle)
      (hprev : (ph j = .done ∧ ∃ e, sys.outcome j = .err e) ∨ ph j = .skip) :
      QStep sys ph (.propagate i) (updPhase ph i .skip)

inductive QReach (sys : ChainSys) : (Nat → Phase) → List QEvent → Prop where
  | init : QReach sys (fun _ => .idle) []
  | step (ph : Nat → Phase) (tr : List QEvent) (e : QEvent) (ph2 : Nat → Phase) :
      QReach sys ph tr → QStep sys ph e ph2 → QReach sys ph2 (tr ++ [e])

/-- The indices of tasks whose bodies have started, in the order the starts
occurred. -/
def startsOf (tr : List QEvent) : List Nat :=
  tr.filterMap fun e =>
    match e with
    | .start i => some i
    | _ => none

/-- Shape of every reachable chain state: a settled prefix (each task done
or propagated over), then at most one task at the front, idle or running,
with everything beyond it idle. -/
def ChainInv (ph : Nat → Phase) : Prop :=
  ∃ k, (∀ j, j < k → ph j = .done ∨ ph j = .skip) ∧
    (∀ j, k < j → ph j = .idle) ∧
    (ph k = .idle ∨ ph k = .running)

/-! ### Session state machine (src/unnamed/part_001, connect/disconnect) -/

inductive SessionState where
  | connecting
  | connected
  | disconnected
deriving DecidableEq

/-- Result of one `connect()` or `disconnect()` call: the new value of
`this.state`, whether the transport attach (`sub.subscribe`+`connect`,
`rpc.connect`, `pub.connect`) or detach side effect was performed, and the
state-change notifications emitted via `updateState`. -/
structure SessionResult where
  state : SessionState
  attach : Bool
  detach : Bool
  emitted : List SessionState
deriving DecidableEq

def connect : SessionState → SessionResult
  | .connected => ⟨.connected, false, false, []⟩
  | .connecting => ⟨.connecting, false, false, []⟩
  | .disconnected => ⟨.connected, true, false, [.connecting, .connected]⟩

def disconnect : SessionState → SessionResult
  | .disconnected => ⟨.disconnected, false, false, []⟩
  | .connecting => ⟨.connecting, false, false, []⟩
  | .connected => ⟨.disconnected, false, true, [.disconnected]⟩

/-! ### Registry, envelopes and decoded values

The message registry `blueye.protocol` is external to the repository; it is
embedded as an abstract `Registry` with a membership test (`key in
blueye.protocol`, the `isInProtocol` guard) and a per-key decoder.  A decoded
protobuf value is opaque except that it may carry a nested `payload`
envelope (`{ typeUrl, value }`), which is all the client code inspects. -/

structure Envelope where
  typeUrl : String
  value : List Nat
deriving DecidableEq

structure Decoded where
  payload : Option Envelope
  raw : List Nat
deriving DecidableEq

structure Registry where
  mem : String → Bool
  decode : String → List Nat → Decoded

/-- JS `"…".split(".")` over the character list: splitting on the single
character `.` always yields at least one (possibly empty) group, as JS
`split` does. -/
def splitDots (cs : List Char) : List (List Char) :=
  match cs with
  | [] => [[]]
  | c :: rest =>
    let r := splitDots rest
    if c = '.' then [] :: r
    else
      match r with
      | [] => [[c]]
      | g :: gs => (c :: g) :: gs

/-- The JS expression `val.split(".").at(-1)`: the last dot-separated component
(the whole string when it contains no dot, the empty string after a trailing
dot). -/
def lastComp (s : String) : String :=
  String.mk ((splitDots s.toList).getLastD [])

/-- JS `key.endsWith(suffix)`: the final characters of `key` are exactly
`suffix`.  When `suffix` is longer than the string the dropped list is the
whole string, whose length differs from the suffix, so the comparison is
`false`, as in JS. -/
def strEndsWith (s suffix : String) : Bool :=
  s.toList.drop (s.toList.length - suffix.toList.length) == suffix.toList

/-! ### RPC reply handling (src/unnamed/part_001, sendRequest/getTelemetry)

`sendRequest` encodes the request, enqueues the exchange, and races it
against a timeout; the reply arrives as a two-part message `(topic, data)`
and the reply key is `topic.toString().split(".").at(-1)`.  The embedding
takes the correlated reply as an argument and covers the validation and
decoding path after the race is won by the reply. -/

inductive RpcError where
  | unknownProtocol
  | unexpectedReply
deriving DecidableEq

def handleReply (reg : Registry) (key : String) (data : List Nat) :
    Except RpcError (Option Decoded) :=
  if key = "Empty" then .ok none
  else if (reg.mem key && strEndsWith key "Rep") = false then .error .unexpectedReply
  else .ok (some (reg.decode key data))

def sendRequest (reg : Registry) (req : String) (replyTopic : String)
    (replyData : List Nat) : Except RpcError (Option Decoded) :=
  if (reg.mem req && strEndsWith req "Req") = false then .error .unknownProtocol
  else handleReply reg (lastComp replyTopic) replyData

inductive TelError where
  | schemaError
  | unknownTelemetryType
deriving DecidableEq

/-- Behavior of `getTelemetry(type)` after its inner `sendRequest("GetTelemetryReq",
{ messageType: type })` has settled with `response`.  `telemetrySchema.parse`
throws (modelled as `schemaError`) when the response is `null` or has no
`payload`; the schema's transform takes the last dot-component of `typeUrl`.
Note the requested `type` is used only to form the request; the reply
handling never compares `typeUrl` against it. -/
def getTelemetry (reg : Registry) (type : String) (response : Option Decoded) :
    Except TelError Decoded :=
  match response with
  | none => .error .schemaError
  | some r =>
    match r.payload with
    | none => .error .schemaError
    | some env =>
      let typeUrl := lastComp env.typeUrl
      if (reg.mem typeUrl && strEndsWith typeUrl "Tel") = false then
        .error .unknownTelemetryType
      else .ok (reg.decode typeUrl env.value)

/-! ### Binlog decoder (src/unnamed/part_003)

`parseMessages` walks the decompressed buffer with a
`BinaryReader` (`@bufbuild/protobuf/wire`): it repeatedly reads a varint
length prefix via `reader.uint32()`, slices that many bytes as one frame,
decodes the frame as a `BinlogRecord` (`blueye.protocol.BinlogRecord.decode`,
external; embedded as the abstract argument `dec`), resolves the payload
envelope against the registry, resolves one further envelope level for
`GetTelemetryRep` records, and finally (by default) reconciles timestamps
with `fixMessageTimes`. -/

inductive ProtocolType where
  | req
  | rep
  | tel
  | ctrl
deriving DecidableEq

/-- The fields of a decoded `BinlogRecord`: two optional `Date` timestamps
(milliseconds) and an optional payload envelope. -/
structure RawRecord where
  clockMonotonic : Option Int
  unixTimestamp : Option Int
  payload : Option Envelope
deriving DecidableEq

structure Message where
  monotonicTime : Int
  time : Int
  type : ProtocolType
  key : String
  data : Decoded
  innerData : Option Decoded
deriving DecidableEq

/-- Reading `buf[i]` on a `Uint8Array`: in range, the stored byte (masked to
8 bits by the typed array); out of range, JS yields `undefined`, which the
reader's bitwise operations coerce to `0`. -/
def byteAt (buf : List Nat) (i : Nat) : Nat :=
  buf.getD i 0 % 256

/-- The tail loop of `varint32read`: after the fifth byte has been read into
`b` (position `pos`), while `b` has its continuation bit set and fewer than
10 bytes were read in total, keep reading; then throw on a still-set
continuation bit, else `assertBounds` (throw if the position ran past the
end).  `k` counts the reads still permitted (10 - readBytes). -/
def skipHigh (buf : List Nat) (pos : Nat) (b : Nat) : Nat → Except Unit Nat
  | 0 =>
    if 128 ≤ b % 256 then .error ()
    else if pos ≤ buf.length then .ok pos
    else .error ()
  | k + 1 =>
    if 128 ≤ b % 256 then skipHigh buf (pos + 1) (byteAt buf pos) k
    else if pos ≤ buf.length then .ok pos
    else .error ()

/-- The reader primitive `BinaryReader.uint32` (`varint32read`): little-endian base-128 varint,
accumulating 7 bits per byte for four bytes and the low 4 bits of a fifth,
the whole result taken as an unsigned 32-bit value (`>>> 0`); excess
continuation bytes are skipped up to a total of 10; reading past the end of
the buffer throws.  Returns the value and the position after the varint. -/
def varint32read (buf : List Nat) (pos : Nat) : Except Unit (Nat × Nat) :=
  let b0 := byteAt buf pos
  if b0 < 128 then
    if pos + 1 ≤ buf.length then .ok (b0, pos + 1) else .error ()
  else
    let b1 := byteAt buf (pos + 1)
    let r1 := b0 % 128 + b1 % 128 * 128
    if b1 < 128 then
      if pos + 2 ≤ buf.length then .ok (r1, pos + 2) else .error ()
    else
      let b2 := byteAt buf (pos + 2)
      let r2 := b0 % 128 + b1 % 128 * 128 + b2 % 128 * 16384
      if b2 < 128 then
        if pos + 3 ≤ buf.length then .ok (r2, pos + 3) else .error ()
      else
        let b3 := byteAt buf (pos + 3)
        let r3 := b0 % 128 + b1 % 128 * 128 + b2 % 128 * 16384 + b3 % 128 * 2097152
        if b3 < 128 then
          if pos + 4 ≤ buf.length then .ok (r3, pos + 4) else .error ()
        else
          let b4 := byteAt buf (pos + 4)
          let r4 := (b0 % 128 + b1 % 128 * 128 + b2 % 128 * 16384 +
            b3 % 128 * 2097152 + b4 % 16 * 268435456) % 4294967296
          match skipHigh buf (pos + 5) b4 5 with
          | .error _ => .error ()
          | .ok p => .ok (r4, p)

/-- One frame of the loop body of `parseMessages`, applied to the sliced
frame bytes: decode the `BinlogRecord`, derive the key as the last
dot-component of the payload's `typeUrl` (JS `!key` also rejects the empty
string), skip unknown keys and missing payloads with a warning, decode the
payload, resolve one level of nesting for `GetTelemetryRep` (skipping the
whole frame when the inner key does not resolve), classify the channel by
key suffix, and build the `Message`. -/
def processFrame (reg : Registry) (dec : List Nat → RawRecord) (frame : List Nat) :
    Option Message :=
  let msg := dec frame
  match msg.payload with
  | none => none
  | some p =>
    let key := lastComp p.typeUrl
    if key = "" then none
    else if reg.mem key = false then none
    else
      let data := reg.decode key p.value
      let inner : Option (Option Decoded) :=
        if key = "GetTelemetryRep" then
          match data.payload with
          | none => none
          | some ip =>
            let innerKey := lastComp ip.typeUrl
            if innerKey = "" then none
            else if reg.mem innerKey = false then none
            else some (some (reg.decode innerKey ip.value))
        else some none
      match inner with
      | none => none
      | some innerData =>
        let type : ProtocolType :=
          if strEndsWith key "Ctrl" then .ctrl
          else if strEndsWith key "Rep" then .rep
          else if strEndsWith key "Req" then .req
          else .tel
        some { monotonicTime := msg.clockMonotonic.getD 0
               time := msg.unixTimestamp.getD 0
               type := type
               key := key
               data := data
               innerData := innerData }

/-- Embedding of `fixMessageTimes`: anchor on the last record's monotonic/wall pair and
recompute every record's wall time from its monotonic offset to the anchor.
The JS loop mutates `message.time` in place using only the (unmutated)
`monotonicTime` fields and the anchor values read before the loop, so it is
the map below; the empty list is returned unchanged. -/
def fixMessageTimes (messages : List Message) : List Message :=
  match messages.getLast? with
  | none => messages
  | some last =>
    messages.map fun message =>
      { message with time := last.time - (last.monotonicTime - message.monotonicTime) }

/-- The `while (reader.pos < reader.len)` loop.  Each iteration advances
`pos` by at least one byte, so `buf.length + 1` steps of fuel always suffice;
the fuel-exhaustion branch is unreachable from `parseMessages`.  A length
prefix whose declared end runs past the buffer stops the loop (`break` after
`console.error`), returning the records accumulated so far; a varint that
itself runs past the buffer propagates the reader's thrown `RangeError`
(`.error`). -/
def parseLoop (reg : Registry) (dec : List Nat → RawRecord) (buf : List Nat) :
    Nat → Nat → List Message → Except Unit (List Message)
  | 0, _, acc => .ok acc
  | fuel + 1, pos, acc =>
    if pos < buf.length then
      match varint32read buf pos with
      | .error _ => .error ()
      | .ok (len, start) =>
        if start + len > buf.length then .ok acc
        else
          parseLoop reg dec buf fuel (start + len)
            (acc ++ (processFrame reg dec ((buf.drop start).take len)).toList)
    else .ok acc

def parseMessages (reg : Registry) (dec : List Nat → RawRecord) (buf : List Nat)
    (fixTimes : Bool := true) : Except Unit (List Message) :=
  match parseLoop reg dec buf (buf.length + 1) 0 [] with
  | .error e => .error e
  | .ok messages => .ok (if fixTimes then fixMessageTimes messages else messages)

/-- Protobuf varint encoding (little-endian base 128, continuation bit on
every byte but the last); the framing writers produce this for the length
prefix that `reader.uint32()` consumes.  Structural recursion on a digit
budget: 11 base-128 digits cover every value below `2 ^ 77`, so in
particular every `uint32` length a writer can emit. -/
def encVarintF : Nat → Nat → List Nat
  | 0, n => [n]
  | fuel + 1, n => if n < 128 then [n] else (n % 128 + 128) :: encVarintF fuel (n / 128)

def encVarint (n : Nat) : List Nat :=
  encVarintF 10 n

/-- A well-framed buffer: every frame preceded by its varint length. -/
def encodeFrames (frames : List (List Nat)) : List Nat :=
  match frames with
  | [] => []
  | f :: fs => encVarint f.length ++ f ++ encodeFrames fs

/-! ### Concrete instances used by witnesses and counterexamples -/

/-- A tiny decoder dispatch for concrete runs: the first payload byte picks
the message key. -/
def keyOfByte : Nat → String
  | 0 => "BatteryTel"
  | 1 => "GetTelemetryRep"
  | 2 => "UnknownThing"
  | _ => "DepthTel"

/-- A concrete registry: a closed key set and a decoder that tags the raw
bytes with the key's length (so different keys visibly decode differently)
and synthesizes an inner envelope for `GetTelemetryRep` from the first
value byte. -/
def reg₀ : Registry where
  mem k := ["BatteryTel", "DepthTel", "GetTelemetryReq", "GetTelemetryRep",
    "GetBatteryReq", "GetBatteryRep"].contains k
  decode k v :=
    if k = "GetTelemetryRep" then
      { payload := some ⟨keyOfByte (v.getD 0 3), v.drop 1⟩, raw := k.length :: v }
    else { payload := none, raw := k.length :: v }

/-- A concrete `BinlogRecord.decode`: the first frame byte picks the payload
`typeUrl`, the rest are the payload value. -/
def dec₀ : List Nat → RawRecord := fun bytes =>
  match bytes with
  | [] => { clockMonotonic := none, unixTimestamp := none, payload := none }
  | b :: rest =>
    { clockMonotonic := some 100
      unixTimestamp := some 1000
      payload := some ⟨keyOfByte b, rest⟩ }

def demoMsg (mono t : Int) : Message where
  monotonicTime := mono
  time := t
  type := .tel
  key := "BatteryTel"
  data := ⟨none, []⟩
  innerData := none

/-- The reconciliation example from the design document: monotonic times
`[100, 150, 200]`, recorded wall times `[1000, 1040, 1110]`. -/
def demoMsgs : List Message :=
  [demoMsg 100 1000, demoMsg 150 1040, demoMsg 200 1110]

/-- Two tasks on a fresh queue, both fulfilling. -/
def sys₄ : ChainSys where
  n := 2
  outcome := fun _ => .ok 0

/-- The record produced by `parseMessages reg₀ dec₀` on the single frame
`[1, 0, 5]`: a `GetTelemetryRep` envelope whose decoded value carries an
inner `BatteryTel` envelope. -/
def msgGTR : Message where
  monotonicTime := 100
  time := 1000
  type := .rep
  key := "GetTelemetryRep"
  data := ⟨some ⟨"BatteryTel", [5]⟩, [15, 0, 5]⟩
  innerData := some ⟨none, [10, 5]⟩

/-! ## Theorems -/

/-! ### AsyncQueue: chain invariants -/

theorem updPhase_same (ph : Nat → Phase) (i : Nat) (p : Phase) :
    updPhase ph i p i = p := by
  simp [updPhase]

theorem updPhase_other (ph : Nat → Phase) (i : Nat) (p : Phase) {k : Nat}
    (h : k ≠ i) : updPhase ph i p k = ph k := by
  simp [updPhase, h]

theorem qreach_inv {sys : ChainSys} {ph : Nat → Phase} {tr : List QEvent}
    (h : QReach sys ph tr) : ChainInv ph := by
  induction h with
  | init =>
    exact ⟨0, fun j hj => absurd hj (Nat.not_lt_zero j), fun _ _ => rfl, Or.inl rfl⟩
  | step ph tr e ph2 hreach hstep ih =>
    obtain ⟨k, hlt, hgt, hk⟩ := ih
    cases hstep with
    | start i hi hidle hprev =>
      have hik : i = k := by
        rcases Nat.lt_trichotomy i k with hik | hik | hik
        · rcases hlt i hik with hd | hd <;> rw [hidle] at hd <;> cases hd
        · exact hik
        · exfalso
          rcases hprev with rfl | ⟨j, v, rfl, hj, _⟩
          · exact Nat.not_lt_zero k hik
          · rcases Nat.lt_or_ge k j with hkj | hkj
            · rw [hgt j hkj] at hj; cases hj
            · have : j = k := Nat.le_antisymm hkj (Nat.lt_succ_iff.mp hik)
              subst this
              rcases hk with hkk | hkk <;> rw [hkk] at hj <;> cases hj
      subst hik
      refine ⟨i, fun j hj => ?_, fun j hj => ?_, Or.inr (updPhase_same ..)⟩
      · rw [updPhase_other _ _ _ (Nat.ne_of_lt hj)]; exact hlt j hj
      · rw [updPhase_other _ _ _ (Nat.ne_of_gt hj)]; exact hgt j hj
    | settle i hrun =>
      have hik : i = k := by
        rcases Nat.lt_trichotomy i k with hik | hik | hik
        · rcases hlt i hik with hd | hd <;> rw [hrun] at hd <;> cases hd
        · exact hik
        · rw [hgt i hik] at hrun; cases hrun
      subst hik
      refine ⟨i + 1, fun j hj => ?_, fun j hj => ?_, ?_⟩
      · rcases Nat.lt_succ_iff_lt_or_eq.mp hj with hj | rfl
        · rw [updPhase_other _ _ _ (Nat.ne_of_lt hj)]; exact hlt j hj
        · rw [updPhase_same]; exact Or.inl rfl
      · rw [updPhase_other _ _ _ (by omega : j ≠ i)]
        exact hgt j (by omega)
      · rw [updPhase_other _ _ _ (by omega : i + 1 ≠ i)]
        exact Or.inl (hgt (i + 1) (Nat.lt_succ_self i))
    | propagate i j hij hi hidle hprev =>
      have hjlt : j < k := by
        have hj : ph j = .done ∨ ph j = .skip := by
          rcases hprev with ⟨hj, _⟩ | hj
          · exact Or.inl hj
          · exact Or.inr hj
        rcases Nat.lt_trichotomy j k with hjk | rfl | hjk
        · exact hjk
        · exfalso; rcases hk with hkk | hkk <;> rcases hj with hj | hj <;>
            rw [hkk] at hj <;> cases hj
        · exfalso; rcases hj with hj | hj <;> rw [hgt j hjk] at hj <;> cases hj
      have hik : i = k := by
        rcases Nat.lt_trichotomy i k with hik | hik | hik
        · rcases hlt i hik with hd | hd <;> rw [hidle] at hd <;> cases hd
        · exact hik
        · omega
      subst hik
      refine ⟨i + 1, fun l hl => ?_, fun l hl => ?_, ?_⟩
      · rcases Nat.lt_succ_iff_lt_or_eq.mp hl with hl | rfl
        · rw [updPhase_other _ _ _ (Nat.ne_of_lt hl)]; exact hlt l hl
        · rw [updPhase_same]; exact Or.inr rfl
      · rw [updPhase_other _ _ _ (by omega : l ≠ i)]
        exact hgt l (by omega)
      · rw [updPhase_other _ _ _ (by omega : i + 1 ≠ i)]
        exact Or.inl (hgt (i + 1) (Nat.lt_succ_self i))

theorem qreach_done_iff {sys : ChainSys} {ph : Nat → Phase} {tr : List QEvent}
    (h : QReach sys ph tr) : ∀ i, ph i = .done ↔ QEvent.settle i ∈ tr := by
  induction h with
  | init => intro i; simp
  | step ph tr e ph2 hreach hstep ih =>
    intro i
    cases hstep with
    | start i0 hi hidle hprev =>
      by_cases hii : i = i0
      · subst hii
        rw [updPhase_same]
        simp only [List.mem_append, List.mem_singleton]
        constructor
        · intro hc; cases hc
        · rintro (hmem | hc)
          · rw [← ih i, hidle] at hmem; cases hmem
          · cases hc
      · rw [updPhase_other _ _ _ hii, ih i]
        simp [hii]
    | settle i0 hrun =>
      by_cases hii : i = i0
      · subst hii
        rw [updPhase_same]
        simp
      · rw [updPhase_other _ _ _ hii, ih i]
        simp [hii]
    | propagate i0 j hij hi hidle hprev =>
      by_cases hii : i = i0
      · subst hii
        rw [updPhase_same]
        simp only [List.mem_append, List.mem_singleton]
        constructor
        · intro hc; cases hc
        · rintro (hmem | hc)
          · rw [← ih i, hidle] at hmem; cases hmem
          · cases hc
      · rw [updPhase_other _ _ _ hii, ih i]
        simp [hii]

theorem qreach_started_iff {sys : ChainSys} {ph : Nat → Phase} {tr : List QEvent}
    (h : QReach sys ph tr) :
    ∀ i, (ph i = .running ∨ ph i = .done) ↔ QEvent.start i ∈ tr := by
  induction h with
  | init => intro i; simp
  | step ph tr e ph2 hreach hstep ih =>
    intro i
    cases hstep with
    | start i0 hi hidle hprev =>
      by_cases hii : i = i0
      · subst hii
        rw [updPhase_same]
        simp
      · rw [updPhase_other _ _ _ hii, ih i]
        simp [hii]
    | settle i0 hrun =>
      by_cases hii : i = i0
      · subst hii
        rw [updPhase_same]
        constructor
        · intro _
          exact List.mem_append_left _ ((ih _).mp (Or.inl hrun))
        · intro _
          exact Or.inr rfl
      · rw [updPhase_other _ _ _ hii, ih i]
        simp [hii]
    | propagate i0 j hij hi hidle hprev =>
      by_cases hii : i = i0
      · subst hii
        rw [updPhase_same]
        constructor
        · rintro (hc | hc) <;> cases hc
        · intro hmem
          exfalso
          rcases List.mem_append.mp hmem with hmem | hmem
          · have hst := (ih _).mpr hmem
            rw [hidle] at hst
            rcases hst with hc | hc <;> cases hc
          · rw [List.mem_singleton] at hmem
            cases hmem
      · rw [updPhase_other _ _ _ hii, ih i]
        simp [hii]

theorem qreach_starts_sorted {sys : ChainSys} {ph : Nat → Phase} {tr : List QEvent}
    (h : QReach sys ph tr) : (startsOf tr).Pairwise (· < ·) := by
  induction h with
  | init => simp [startsOf]
  | step ph tr e ph2 hreach hstep ih =>
    simp only [startsOf, List.filterMap_append]
    rw [List.pairwise_append]
    refine ⟨ih, ?_, ?_⟩
    · cases e <;> simp
    · intro a ha b hb
      cases hstep with
      | start i0 hi hidle hprev =>
        simp only [List.filterMap_cons, List.filterMap_nil, List.mem_singleton] at hb
        subst hb
        have hmem : QEvent.start a ∈ tr := by
          rcases List.mem_filterMap.mp ha with ⟨ev, hev, hsome⟩
          cases ev <;> simp at hsome
          subst hsome; exact hev
        have hstarted := (qreach_started_iff hreach a).mpr hmem
        obtain ⟨k, hlt, hgt, hk⟩ := qreach_inv hreach
        have hak : a ≤ k := by
          by_contra hak
          rw [hgt a (by omega)] at hstarted
          rcases hstarted with hc | hc <;> cases hc
        have hik : k ≤ b := by
          by_contra hik
          rcases hlt b (by omega) with hd | hd <;> rw [hidle] at hd <;> cases hd
        have hab : a ≠ b := by
          intro hab
          subst hab
          rw [hidle] at hstarted
          rcases hstarted with hc | hc <;> cases hc
        omega
      | settle i0 hrun => simp [List.filterMap_cons] at hb
      | propagate i0 j hij hi hidle hprev => simp [List.filterMap_cons] at hb

theorem qstep_start_inv {sys : ChainSys} {ph ph2 : Nat → Phase} {m : Nat}
    (h : QStep sys ph (QEvent.start m) ph2) :
    ph m = .idle ∧
    (m = 0 ∨ ∃ j v, m = j + 1 ∧ ph j = .done ∧ sys.outcome j = .ok v) := by
  cases h with
  | start i hi hidle hprev => exact ⟨hidle, hprev⟩

theorem qreach_start_after_settle {sys : ChainSys} {ph : Nat → Phase}
    {tr : List QEvent} (h : QReach sys ph tr) :
    ∀ l₁ l₂ i, tr = l₁ ++ QEvent.start (i + 1) :: l₂ → QEvent.settle i ∈ l₁ := by
  induction h with
  | init =>
    intro l₁ l₂ i heq
    exact absurd heq.symm (by simp)
  | step ph tr e ph2 hreach hstep ih =>
    intro l₁ l₂ i heq
    rcases List.eq_nil_or_concat l₂ with rfl | ⟨l₂x, y, rfl⟩
    · have hinj := List.append_inj' heq (by rfl)
      obtain ⟨rfl, hsing⟩ := hinj
      have he : e = QEvent.start (i + 1) := by simpa using hsing
      subst he
      obtain ⟨-, hprev⟩ := qstep_start_inv hstep
      rcases hprev with h0 | ⟨j, v, hj1, hjdone, -⟩
      · cases h0
      · have hji : j = i := by omega
        subst hji
        exact (qreach_done_iff hreach j).mp hjdone
    · have heq2 : tr ++ [e] = (l₁ ++ QEvent.start (i + 1) :: l₂x) ++ [y] := by
        rw [heq]
        simp
      have hinj := List.append_inj' heq2 (by rfl)
      obtain ⟨htr, _⟩ := hinj
      exact ih l₁ l₂x i htr

/-- C4.  Request Queue single-flight FIFO: in every reachable state and
trace of the promise chain built by `AsyncQueue.enqueue`, at most one task
body is running at any instant, task bodies start in submission (index)
order, and a task's body starts only after the previous task's promise has
settled. -/
theorem asyncQueue_single_flight_fifo (sys : ChainSys) (ph : Nat → Phase)
    (tr : List QEvent) (h : QReach sys ph tr) :
    (∀ a b, ph a = .running → ph b = .running → a = b) ∧
    (startsOf tr).Pairwise (· < ·) ∧
    (∀ l₁ l₂ i, tr = l₁ ++ QEvent.start (i + 1) :: l₂ → QEvent.settle i ∈ l₁) := by
  refine ⟨?_, qreach_starts_sorted h, qreach_start_after_settle h⟩
  intro a b ha hb
  obtain ⟨k, hlt, hgt, _⟩ := qreach_inv h
  have hak : a = k := by
    rcases Nat.lt_trichotomy a k with hak | hak | hak
    · rcases hlt a hak with hd | hd <;> rw [ha] at hd <;> cases hd
    · exact hak
    · rw [hgt a hak] at ha; cases ha
  have hbk : b = k := by
    rcases Nat.lt_trichotomy b k with hbk | hbk | hbk
    · rcases hlt b hbk with hd | hd <;> rw [hb] at hd <;> cases hd
    · exact hbk
    · rw [hgt b hbk] at hb; cases hb
  rw [hak, hbk]

theorem asyncQueue_single_flight_fifo_witness :
    QReach sys₄ (updPhase (fun _ => Phase.idle) 0 .running) [QEvent.start 0] ∧
    (∀ a b, updPhase (fun _ => Phase.idle) 0 Phase.running a = .running →
      updPhase (fun _ => Phase.idle) 0 Phase.running b = .running → a = b) := by
  have hr : QReach sys₄ (updPhase (fun _ => Phase.idle) 0 .running) [QEvent.start 0] :=
    QReach.step (fun _ => .idle) [] (QEvent.start 0) _
      QReach.init (QStep.start _ 0 (by decide) rfl (Or.inl rfl))
  exact ⟨hr, (asyncQueue_single_flight_fifo sys₄ _ _ hr).1⟩

/-- C1.  Evaluation of the `AsyncQueue` chain at the failing input: with two
tasks where the first rejects, the second task's function body is never
invoked (`false`) and the promise `enqueue` returned for it settles with the
*first* task's rejection, not with its own outcome — the `.finally(() => {})`
link does not swallow the rejection, so queue failures are not isolated as
the specification requires. -/
theorem asyncQueue_failure_not_isolated :
    enqueueAll [Outcome.err 1, Outcome.ok 2]
      = [(true, Outcome.err 1), (false, Outcome.err 1)] := rfl

/-! ### Session state machine -/

/-- C7.  `connect()` on `connected` or `connecting` performs no attach and
leaves the state unchanged; from `disconnected`, calling `connect()` twice
attaches exactly once (first call `true`, second call `false`, state stable);
`disconnect()` during `connecting` performs no detach and stays
`connecting`; `disconnect()` when `disconnected` is a no-op. -/
theorem session_noop_transitions :
    connect .connected = ⟨.connected, false, false, []⟩ ∧
    connect .connecting = ⟨.connecting, false, false, []⟩ ∧
    (connect .disconnected).attach = true ∧
    (connect (connect .disconnected).state).attach = false ∧
    (connect (connect .disconnected).state).state = (connect .disconnected).state ∧
    disconnect .connecting = ⟨.connecting, false, false, []⟩ ∧
    disconnect .disconnected = ⟨.disconnected, false, false, []⟩ := by
  decide

/-! ### Timeline reconciliation -/

theorem getLast?_cons_eq_some (m : Message) (ms : List Message) :
    (m :: ms).getLast? = some (ms.getLastD m) := by
  induction ms generalizing m with
  | nil => rfl
  | cons b t ih => rw [List.getLast?_cons_cons, ih b, List.getLastD_cons]

/-- C2.  `fixMessageTimes` anchors on the last record's
`(monotonicTime, time)` pair and rewrites every record's wall-clock time to
`anchorWall - (anchorMonotonic - monotonicTime)`; on the design document's
example (monotonic `[100, 150, 200]`, wall `[1000, 1040, 1110]`) the
reconciled wall times are `[1010, 1060, 1110]`. -/
theorem fixMessageTimes_anchor (m : Message) (ms : List Message) :
    (fixMessageTimes (m :: ms)).map (fun x => x.time)
      = (m :: ms).map (fun x =>
          (ms.getLastD m).time - ((ms.getLastD m).monotonicTime - x.monotonicTime)) ∧
    (fixMessageTimes demoMsgs).map (fun x => x.time) = [1010, 1060, 1110] := by
  constructor
  · rw [fixMessageTimes, getLast?_cons_eq_some m ms]
    rw [List.map_map]
    rfl
  · decide

/-- C10.  Frame condition of `fixMessageTimes`: the result has the same
length and order, every field other than `time` is unchanged at every
position, the last record's own `time` is unchanged (its delta to the anchor
is zero), and the empty list is returned unchanged. -/
theorem fixMessageTimes_frame (msgs : List Message) (d : Message) (i : Nat) :
    fixMessageTimes ([] : List Message) = [] ∧
    (fixMessageTimes msgs).length = msgs.length ∧
    ((fixMessageTimes msgs).getD i d).monotonicTime = (msgs.getD i d).monotonicTime ∧
    ((fixMessageTimes msgs).getD i d).type = (msgs.getD i d).type ∧
    ((fixMessageTimes msgs).getD i d).key = (msgs.getD i d).key ∧
    ((fixMessageTimes msgs).getD i d).data = (msgs.getD i d).data ∧
    ((fixMessageTimes msgs).getD i d).innerData = (msgs.getD i d).innerData ∧
    ((fixMessageTimes msgs).getLastD d).time = (msgs.getLastD d).time := by
  refine ⟨rfl, ?_⟩
  cases hl : msgs.getLast? with
  | none =>
    rw [List.getLast?_eq_none_iff] at hl
    subst hl
    simp [fixMessageTimes]
  | some last =>
    have hfix : fixMessageTimes msgs = msgs.map (fun message =>
        { message with
          time := last.time - (last.monotonicTime - message.monotonicTime) }) := by
      rw [fixMessageTimes, hl]
    rw [hfix]
    refine ⟨by simp, ?_, ?_, ?_, ?_, ?_, ?_⟩
    · simp only [List.getD_eq_getElem?_getD, List.getElem?_map]
      cases msgs[i]? <;> rfl
    · simp only [List.getD_eq_getElem?_getD, List.getElem?_map]
      cases msgs[i]? <;> rfl
    · simp only [List.getD_eq_getElem?_getD, List.getElem?_map]
      cases msgs[i]? <;> rfl
    · simp only [List.getD_eq_getElem?_getD, List.getElem?_map]
      cases msgs[i]? <;> rfl
    · simp only [List.getD_eq_getElem?_getD, List.getElem?_map]
      cases msgs[i]? <;> rfl
    · rw [List.getLastD_eq_getLast?, List.getLastD_eq_getLast?,
        List.getLast?_map, hl]
      simp

/-! ### RPC reply handling -/

/-- C5, counterexample.  `getTelemetry` does not compare the reply
envelope's `typeUrl` with the requested telemetry key: requesting
`BatteryTel` while the envelope carries `DepthTel` (a known `Tel` registry
key, but a different family) succeeds and returns the value decoded under
the `DepthTel` registry entry instead of failing. -/
theorem getTelemetry_family_mismatch_accepted :
    getTelemetry reg₀ "BatteryTel"
        (some { payload := some ⟨"DepthTel", [9]⟩, raw := [] })
      = .ok { payload := none, raw := [8, 9] } ∧
    ("DepthTel" : String) ≠ "BatteryTel" := by
  exact ⟨by decide, by decide⟩

/-- C5, amended.  `getTelemetry(T)` validates that the reply envelope's
`typeUrl` is a known registry key ending in `Tel` before decoding and
returning the inner value, and fails with the unknown-telemetry-type error
whenever it does not so resolve (and with a schema error when the reply is
null); it does not check that the `typeUrl` matches the requested key `T`. -/
theorem getTelemetry_validation (reg : Registry) (ty : String) (r : Decoded)
    (env : Envelope) (hp : r.payload = some env) :
    ((reg.mem (lastComp env.typeUrl) && strEndsWith (lastComp env.typeUrl) "Tel") = true →
      getTelemetry reg ty (some r)
        = .ok (reg.decode (lastComp env.typeUrl) env.value)) ∧
    ((reg.mem (lastComp env.typeUrl) && strEndsWith (lastComp env.typeUrl) "Tel") = false →
      getTelemetry reg ty (some r) = .error .unknownTelemetryType) ∧
    getTelemetry reg ty none = .error .schemaError := by
  refine ⟨fun h => ?_, fun h => ?_, rfl⟩
  · simp [getTelemetry, hp, h]
  · simp [getTelemetry, hp, h]

theorem getTelemetry_validation_witness :
    ({ payload := some ⟨"BatteryTel", [7]⟩, raw := [] } : Decoded).payload
        = some ⟨"BatteryTel", [7]⟩ ∧
    (reg₀.mem (lastComp "BatteryTel") && strEndsWith (lastComp "BatteryTel") "Tel") = true ∧
    getTelemetry reg₀ "BatteryTel"
        (some { payload := some ⟨"BatteryTel", [7]⟩, raw := [] })
      = .ok (reg₀.decode (lastComp "BatteryTel") [7]) := by
  refine ⟨rfl, by decide, ?_⟩
  exact (getTelemetry_validation reg₀ "BatteryTel" _ ⟨"BatteryTel", [7]⟩ rfl).1 (by decide)

/-- C6.  `sendRequest` reply handling: a reply whose key (last dot-component
of the topic) is the sentinel `Empty` resolves with `null`; a non-`Empty`
reply key that is not a registry key ending in `Rep` rejects with the
unexpected-reply error; otherwise the reply bytes are decoded via the
registry entry for the reply key. -/
theorem sendRequest_reply_handling (reg : Registry) (req topic : String)
    (data : List Nat) (hreq : (reg.mem req && strEndsWith req "Req") = true) :
    (lastComp topic = "Empty" → sendRequest reg req topic data = .ok none) ∧
    (lastComp topic ≠ "Empty" →
      (reg.mem (lastComp topic) && strEndsWith (lastComp topic) "Rep") = false →
      sendRequest reg req topic data = .error .unexpectedReply) ∧
    (lastComp topic ≠ "Empty" →
      (reg.mem (lastComp topic) && strEndsWith (lastComp topic) "Rep") = true →
      sendRequest reg req topic data
        = .ok (some (reg.decode (lastComp topic) data))) := by
  refine ⟨fun h1 => ?_, fun h1 h2 => ?_, fun h1 h2 => ?_⟩
  · simp [sendRequest, hreq, handleReply, h1]
  · simp [sendRequest, hreq, handleReply, h1, h2]
  · simp [sendRequest, hreq, handleReply, h1, h2]

theorem sendRequest_reply_handling_witness :
    (reg₀.mem "GetBatteryReq" && strEndsWith "GetBatteryReq" "Req") = true ∧
    sendRequest reg₀ "GetBatteryReq" "x.GetBatteryRep" [2]
      = .ok (some (reg₀.decode (lastComp "x.GetBatteryRep") [2])) := by
  refine ⟨by decide, ?_⟩
  exact (sendRequest_reply_handling reg₀ "GetBatteryReq" "x.GetBatteryRep" [2]
    (by decide)).2.2 (by decide) (by decide)

/-! ### Binlog framing: varint lemmas -/

theorem byteAt_append (pre s : List Nat) (k : Nat) :
    byteAt (pre ++ s) (pre.length + k) = byteAt s k := by
  unfold byteAt
  rw [List.getD_eq_getElem?_getD, List.getD_eq_getElem?_getD,
    List.getElem?_append_right (Nat.le_add_right _ _), Nat.add_sub_cancel_left]

theorem byteAt_cons_zero (a : Nat) (t : List Nat) : byteAt (a :: t) 0 = a % 256 := rfl

theorem byteAt_cons_succ (a : Nat) (t : List Nat) (k : Nat) :
    byteAt (a :: t) (k + 1) = byteAt t k := rfl

theorem encVarintF_succ (fuel n : Nat) :
    encVarintF (fuel + 1) n
      = if n < 128 then [n] else (n % 128 + 128) :: encVarintF fuel (n / 128) := rfl

theorem encVarint_form1 {n : Nat} (h : n < 128) : encVarint n = [n] := by
  unfold encVarint
  rw [show (10 : Nat) = 9 + 1 from rfl, encVarintF_succ, if_pos h]

theorem encVarint_form2 {n : Nat} (h1 : 128 ≤ n) (h2 : n < 16384) :
    encVarint n = [n % 128 + 128, n / 128] := by
  unfold encVarint
  rw [show (10 : Nat) = 9 + 1 from rfl, encVarintF_succ, if_neg (by omega),
    show (9 : Nat) = 8 + 1 from rfl, encVarintF_succ, if_pos (by omega)]

theorem encVarint_form3 {n : Nat} (h1 : 16384 ≤ n) (h2 : n < 2097152) :
    encVarint n = [n % 128 + 128, n / 128 % 128 + 128, n / 128 / 128] := by
  unfold encVarint
  rw [show (10 : Nat) = 9 + 1 from rfl, encVarintF_succ, if_neg (by omega),
    show (9 : Nat) = 8 + 1 from rfl, encVarintF_succ, if_neg (by omega),
    show (8 : Nat) = 7 + 1 from rfl, encVarintF_succ, if_pos (by omega)]

theorem encVarint_form4 {n : Nat} (h1 : 2097152 ≤ n) (h2 : n < 268435456) :
    encVarint n
      = [n % 128 + 128, n / 128 % 128 + 128, n / 128 / 128 % 128 + 128,
         n / 128 / 128 / 128] := by
  unfold encVarint
  rw [show (10 : Nat) = 9 + 1 from rfl, encVarintF_succ, if_neg (by omega),
    show (9 : Nat) = 8 + 1 from rfl, encVarintF_succ, if_neg (by omega),
    show (8 : Nat) = 7 + 1 from rfl, encVarintF_succ, if_neg (by omega),
    show (7 : Nat) = 6 + 1 from rfl, encVarintF_succ, if_pos (by omega)]

theorem encVarint_form5 {n : Nat} (h1 : 268435456 ≤ n) (h2 : n < 34359738368) :
    encVarint n
      = [n % 128 + 128, n / 128 % 128 + 128, n / 128 / 128 % 128 + 128,
         n / 128 / 128 / 128 % 128 + 128, n / 128 / 128 / 128 / 128] := by
  unfold encVarint
  rw [show (10 : Nat) = 9 + 1 from rfl, encVarintF_succ, if_neg (by omega),
    show (9 : Nat) = 8 + 1 from rfl, encVarintF_succ, if_neg (by omega),
    show (8 : Nat) = 7 + 1 from rfl, encVarintF_succ, if_neg (by omega),
    show (7 : Nat) = 6 + 1 from rfl, encVarintF_succ, if_neg (by omega),
    show (6 : Nat) = 5 + 1 from rfl, encVarintF_succ, if_pos (by omega)]

theorem encVarint_length {n : Nat} (hn : n < 4294967296) :
    1 ≤ (encVarint n).length ∧ (encVarint n).length ≤ 5 := by
  rcases Nat.lt_or_ge n 128 with h | h1
  · rw [encVarint_form1 h]; exact ⟨by simp, by simp⟩
  rcases Nat.lt_or_ge n 16384 with h | h2
  · rw [encVarint_form2 h1 h]; exact ⟨by simp, by simp⟩
  rcases Nat.lt_or_ge n 2097152 with h | h3
  · rw [encVarint_form3 h2 h]; exact ⟨by simp, by simp⟩
  rcases Nat.lt_or_ge n 268435456 with h | h4
  · rw [encVarint_form4 h3 h]; exact ⟨by simp, by simp⟩
  · rw [encVarint_form5 h4 (by omega)]; exact ⟨by simp, by simp⟩

theorem skipHigh_succ (buf : List Nat) (pos b k : Nat) :
    skipHigh buf pos b (k + 1)
      = if 128 ≤ b % 256 then skipHigh buf (pos + 1) (byteAt buf pos) k
        else if pos ≤ buf.length then .ok pos else .error () := rfl

theorem byteAt_append_zero (pre s : List Nat) :
    byteAt (pre ++ s) pre.length = byteAt s 0 := by
  have h := byteAt_append pre s 0
  rwa [Nat.add_zero] at h

/-- Reading back an encoded varint: `reader.uint32()` positioned at the
start of `encVarint n` recovers `n` and stops right after it, for every
`n` in `uint32` range, independent of what precedes and follows. -/
theorem varint32read_encVarint {n : Nat} (hn : n < 4294967296)
    (pre rest : List Nat) :
    varint32read (pre ++ (encVarint n ++ rest)) pre.length
      = .ok (n, pre.length + (encVarint n).length) := by
  rcases Nat.lt_or_ge n 128 with h1 | h1
  · rw [encVarint_form1 h1]
    simp only [List.cons_append, List.nil_append]
    have e0 : byteAt (pre ++ n :: rest) pre.length = n := by
      rw [byteAt_append_zero, byteAt_cons_zero]; omega
    simp only [varint32read, e0]
    rw [if_pos (by omega), if_pos (by simp only [List.length_append, List.length_cons]; omega)]
    simp
  · rcases Nat.lt_or_ge n 16384 with h2 | h2
    · rw [encVarint_form2 h1 h2]
      simp only [List.cons_append, List.nil_append]
      have e0 : byteAt (pre ++ (n % 128 + 128) :: n / 128 :: rest) pre.length
          = n % 128 + 128 := by
        rw [byteAt_append_zero, byteAt_cons_zero]; omega
      have e1 : byteAt (pre ++ (n % 128 + 128) :: n / 128 :: rest) (pre.length + 1)
          = n / 128 := by
        rw [byteAt_append pre _ 1, byteAt_cons_succ, byteAt_cons_zero]; omega
      simp only [varint32read, e0, e1]
      rw [if_neg (by omega), if_pos (by omega),
        if_pos (by simp only [List.length_append, List.length_cons]; omega)]
      have hv : (n % 128 + 128) % 128 + n / 128 % 128 * 128 = n := by omega
      rw [hv]
      simp
    · rcases Nat.lt_or_ge n 2097152 with h3 | h3
      · rw [encVarint_form3 h2 h3]
        simp only [List.cons_append, List.nil_append]
        have e0 : byteAt
            (pre ++ (n % 128 + 128) :: (n / 128 % 128 + 128) :: n / 128 / 128 :: rest)
            pre.length = n % 128 + 128 := by
          rw [byteAt_append_zero, byteAt_cons_zero]; omega
        have e1 : byteAt
            (pre ++ (n % 128 + 128) :: (n / 128 % 128 + 128) :: n / 128 / 128 :: rest)
            (pre.length + 1) = n / 128 % 128 + 128 := by
          rw [byteAt_append pre _ 1, byteAt_cons_succ, byteAt_cons_zero]; omega
        have e2 : byteAt
            (pre ++ (n % 128 + 128) :: (n / 128 % 128 + 128) :: n / 128 / 128 :: rest)
            (pre.length + 2) = n / 128 / 128 := by
          rw [byteAt_append pre _ 2, byteAt_cons_succ, byteAt_cons_succ,
            byteAt_cons_zero]
          omega
        simp only [varint32read, e0, e1, e2]
        rw [if_neg (by omega), if_neg (by omega), if_pos (by omega),
          if_pos (by simp only [List.length_append, List.length_cons]; omega)]
        have hv : (n % 128 + 128) % 128 + (n / 128 % 128 + 128) % 128 * 128
            + n / 128 / 128 % 128 * 16384 = n := by omega
        rw [hv]
        simp
      · rcases Nat.lt_or_ge n 268435456 with h4 | h4
        · rw [encVarint_form4 h3 h4]
          simp only [List.cons_append, List.nil_append]
          have e0 : byteAt
              (pre ++ (n % 128 + 128) :: (n / 128 % 128 + 128)
                :: (n / 128 / 128 % 128 + 128) :: n / 128 / 128 / 128 :: rest)
              pre.length = n % 128 + 128 := by
            rw [byteAt_append_zero, byteAt_cons_zero]; omega
          have e1 : byteAt
              (pre ++ (n % 128 + 128) :: (n / 128 % 128 + 128)
                :: (n / 128 / 128 % 128 + 128) :: n / 128 / 128 / 128 :: rest)
              (pre.length + 1) = n / 128 % 128 + 128 := by
            rw [byteAt_append pre _ 1, byteAt_cons_succ, byteAt_cons_zero]; omega
          have e2 : byteAt
              (pre ++ (n % 128 + 128) :: (n / 128 % 128 + 128)
                :: (n / 128 / 128 % 128 + 128) :: n / 128 / 128 / 128 :: rest)
              (pre.length + 2) = n / 128 / 128 % 128 + 128 := by
            rw [byteAt_append pre _ 2, byteAt_cons_succ, byteAt_cons_succ,
              byteAt_cons_zero]
            omega
          have e3 : byteAt
              (pre ++ (n % 128 + 128) :: (n / 128 % 128 + 128)
                :: (n / 128 / 128 % 128 + 128) :: n / 128 / 128 / 128 :: rest)
              (pre.length + 3) = n / 128 / 128 / 128 := by
            rw [byteAt_append pre _ 3, byteAt_cons_succ, byteAt_cons_succ,
              byteAt_cons_succ, byteAt_cons_zero]
            omega
          simp only [varint32read, e0, e1, e2, e3]
          rw [if_neg (by omega), if_neg (by omega), if_neg (by omega),
            if_pos (by omega), if_pos (by simp only [List.length_append, List.length_cons]; omega)]
          have hv : (n % 128 + 128) % 128 + (n / 128 % 128 + 128) % 128 * 128
              + (n / 128 / 128 % 128 + 128) % 128 * 16384
              + n / 128 / 128 / 128 % 128 * 2097152 = n := by omega
          rw [hv]
          simp
        · rw [encVarint_form5 h4 (by omega)]
          simp only [List.cons_append, List.nil_append]
          have e0 : byteAt
              (pre ++ (n % 128 + 128) :: (n / 128 % 128 + 128)
                :: (n / 128 / 128 % 128 + 128) :: (n / 128 / 128 / 128 % 128 + 128)
                :: n / 128 / 128 / 128 / 128 :: rest)
              pre.length = n % 128 + 128 := by
            rw [byteAt_append_zero, byteAt_cons_zero]; omega
          have e1 : byteAt
              (pre ++ (n % 128 + 128) :: (n / 128 % 128 + 128)
                :: (n / 128 / 128 % 128 + 128) :: (n / 128 / 128 / 128 % 128 + 128)
                :: n / 128 / 128 / 128 / 128 :: rest)
              (pre.length + 1) = n / 128 % 128 + 128 := by
            rw [byteAt_append pre _ 1, byteAt_cons_succ, byteAt_cons_zero]; omega
          have e2 : byteAt
              (pre ++ (n % 128 + 128) :: (n / 128 % 128 + 128)
                :: (n / 128 / 128 % 128 + 128) :: (n / 128 / 128 / 128 % 128 + 128)
                :: n / 128 / 128 / 128 / 128 :: rest)
              (pre.length + 2) = n / 128 / 128 % 128 + 128 := by
            rw [byteAt_append pre _ 2, byteAt_cons_succ, byteAt_cons_succ,
              byteAt_cons_zero]
            omega
          have e3 : byteAt
              (pre ++ (n % 128 + 128) :: (n / 128 % 128 + 128)
                :: (n / 128 / 128 % 128 + 128) :: (n / 128 / 128 / 128 % 128 + 128)
                :: n / 128 / 128 / 128 / 128 :: rest)
              (pre.length + 3) = n / 128 / 128 / 128 % 128 + 128 := by
            rw [byteAt_append pre _ 3, byteAt_cons_succ, byteAt_cons_succ,
              byteAt_cons_succ, byteAt_cons_zero]
            omega
          have e4 : byteAt
              (pre ++ (n % 128 + 128) :: (n / 128 % 128 + 128)
                :: (n / 128 / 128 % 128 + 128) :: (n / 128 / 128 / 128 % 128 + 128)
                :: n / 128 / 128 / 128 / 128 :: rest)
              (pre.length + 4) = n / 128 / 128 / 128 / 128 := by
            rw [byteAt_append pre _ 4, byteAt_cons_succ, byteAt_cons_succ,
              byteAt_cons_succ, byteAt_cons_succ, byteAt_cons_zero]
            omega
          simp only [varint32read, e0, e1, e2, e3, e4]
          rw [if_neg (by omega), if_neg (by omega), if_neg (by omega),
            if_neg (by omega), show (5 : Nat) = 4 + 1 from rfl, skipHigh_succ,
            if_neg (by omega), if_pos (by simp only [List.length_append, List.length_cons]; omega)]
          have hv : ((n % 128 + 128) % 128 + (n / 128 % 128 + 128) % 128 * 128
              + (n / 128 / 128 % 128 + 128) % 128 * 16384
              + (n / 128 / 128 / 128 % 128 + 128) % 128 * 2097152
              + n / 128 / 128 / 128 / 128 % 16 * 268435456) % 4294967296 = n := by
            omega
          rw [hv]
          simp

/-! ### Binlog frame loop -/

theorem filterMap_cons_toList {α β : Type _} (f : α → Option β) (a : α) (l : List α) :
    List.filterMap f (a :: l) = (f a).toList ++ List.filterMap f l := by
  cases h : f a <;> simp [List.filterMap_cons, h]

/-- The frame loop over a well-framed buffer, possibly followed by a
truncated trailing frame (a complete length prefix announcing more bytes
than remain): every complete frame is processed in order, a truncated tail
stops the loop without an error, and the loop returns the accumulated
records. -/
theorem parseLoop_frames (reg : Registry) (dec : List Nat → RawRecord)
    (tail : List Nat)
    (htail : tail = [] ∨
      ∃ L d, L < 4294967296 ∧ tail = encVarint L ++ d ∧ d.length < L) :
    ∀ (fs : List (List Nat)), (∀ f ∈ fs, f.length < 4294967296) →
    ∀ (pre : List Nat) (acc : List Message) (fuel : Nat),
      (pre ++ encodeFrames fs ++ tail).length - pre.length < fuel →
      parseLoop reg dec (pre ++ encodeFrames fs ++ tail) fuel pre.length acc
        = .ok (acc ++ fs.filterMap (processFrame reg dec)) := by
  intro fs
  induction fs with
  | nil =>
    intro _ pre acc fuel hfuel
    rcases htail with rfl | ⟨L, d, hL, rfl, hdL⟩
    · simp only [encodeFrames, List.append_nil] at hfuel ⊢
      cases fuel with
      | zero => omega
      | succ fuelm => simp [parseLoop]
    · simp only [encodeFrames, List.append_nil] at hfuel ⊢
      cases fuel with
      | zero =>
        exfalso
        have h1 := (encVarint_length hL).1
        simp only [List.length_append] at hfuel
        omega
      | succ fuelm =>
        have hvar := varint32read_encVarint hL pre d
        have h1 := (encVarint_length hL).1
        simp only [parseLoop, hvar, List.length_append]
        rw [if_pos (by omega)]
        rw [if_pos (by omega)]
        simp
  | cons f fs ih =>
    intro hfs pre acc fuel hfuel
    have hflen : f.length < 4294967296 := hfs f (List.mem_cons_self f fs)
    have h1 := (encVarint_length hflen).1
    have hassoc : pre ++ encodeFrames (f :: fs) ++ tail
        = pre ++ (encVarint f.length ++ (f ++ (encodeFrames fs ++ tail))) := by
      simp [encodeFrames, List.append_assoc]
    rw [hassoc] at hfuel ⊢
    cases fuel with
    | zero =>
      exfalso
      simp only [List.length_append] at hfuel
      omega
    | succ fuelm =>
      have hvar := varint32read_encVarint hflen pre (f ++ (encodeFrames fs ++ tail))
      simp only [parseLoop, hvar, List.length_append]
      rw [if_pos (by omega)]
      rw [if_neg (by omega)]
      have hslice : ((pre ++ (encVarint f.length ++ (f ++ (encodeFrames fs ++ tail)))).drop
          (pre.length + (encVarint f.length).length)).take f.length = f := by
        rw [show pre ++ (encVarint f.length ++ (f ++ (encodeFrames fs ++ tail)))
            = (pre ++ encVarint f.length) ++ (f ++ (encodeFrames fs ++ tail)) by
          simp [List.append_assoc]]
        rw [show pre.length + (encVarint f.length).length
            = (pre ++ encVarint f.length).length by simp [List.length_append]]
        rw [List.drop_left]
        exact List.take_left f _
      rw [hslice]
      have hpre2 : pre ++ (encVarint f.length ++ (f ++ (encodeFrames fs ++ tail)))
          = (pre ++ encVarint f.length ++ f) ++ encodeFrames fs ++ tail := by
        simp [List.append_assoc]
      have hpos2 : pre.length + (encVarint f.length).length + f.length
          = (pre ++ encVarint f.length ++ f).length := by
        simp only [List.length_append]
      rw [hpre2, hpos2]
      rw [ih (fun g hg => hfs g (List.mem_cons_of_mem f hg))
        (pre ++ encVarint f.length ++ f) (acc ++ (processFrame reg dec f).toList) fuelm
        (by simp only [List.length_append] at hfuel ⊢; omega)]
      rw [filterMap_cons_toList]
      simp [List.append_assoc]

/-- Top-level characterization of `parseMessages` on a well-framed buffer
with an optional truncated tail. -/
theorem parseMessages_frames (reg : Registry) (dec : List Nat → RawRecord)
    (fs : List (List Nat)) (tail : List Nat) (ft : Bool)
    (htail : tail = [] ∨
      ∃ L d, L < 4294967296 ∧ tail = encVarint L ++ d ∧ d.length < L)
    (hfs : ∀ f ∈ fs, f.length < 4294967296) :
    parseMessages reg dec (encodeFrames fs ++ tail) ft
      = .ok (if ft then fixMessageTimes (fs.filterMap (processFrame reg dec))
          else fs.filterMap (processFrame reg dec)) := by
  have h := parseLoop_frames reg dec tail htail fs hfs [] []
    ((encodeFrames fs ++ tail).length + 1) (by simp)
  simp only [List.nil_append, List.length_nil] at h
  unfold parseMessages
  rw [h]

/-- C3.  Binlog truncation tolerance: a buffer of complete frames followed
by a frame whose declared length `L` exceeds the `d.length` bytes that
remain decodes to exactly the records of the same buffer with the truncated
trailing frame removed, and does so without raising (the result is `.ok`). -/
theorem binlog_truncated_tail (reg : Registry) (dec : List Nat → RawRecord)
    (fs : List (List Nat)) (L : Nat) (d : List Nat) (ft : Bool)
    (hfs : ∀ f ∈ fs, f.length < 4294967296) (hL : L < 4294967296)
    (hd : d.length < L) :
    parseMessages reg dec (encodeFrames fs ++ (encVarint L ++ d)) ft
      = parseMessages reg dec (encodeFrames fs) ft ∧
    ∃ ms, parseMessages reg dec (encodeFrames fs ++ (encVarint L ++ d)) ft
      = .ok ms := by
  have h1 := parseMessages_frames reg dec fs (encVarint L ++ d) ft
    (Or.inr ⟨L, d, hL, rfl, hd⟩) hfs
  have h2 := parseMessages_frames reg dec fs [] ft (Or.inl rfl) hfs
  rw [List.append_nil] at h2
  exact ⟨h1.trans h2.symm, _, h1⟩

theorem binlog_truncated_tail_witness :
    (∀ f ∈ [[0, 7]], List.length f < 4294967296) ∧
    parseMessages reg₀ dec₀ (encodeFrames [[0, 7]] ++ (encVarint 3 ++ [1])) true
      = parseMessages reg₀ dec₀ (encodeFrames [[0, 7]]) true := by
  refine ⟨by decide, ?_⟩
  exact (binlog_truncated_tail reg₀ dec₀ [[0, 7]] 3 [1] true
    (by decide) (by decide) (by decide)).1

/-- C8.  Binlog unknown-frame tolerance: a frame whose decoded record has a
missing payload, or whose payload `typeUrl` does not resolve to a registry
key, is skipped and the stream of records from all other frames is still
produced — parsing the buffer with the bad frame equals parsing the buffer
with it removed, and no error is raised. -/
theorem binlog_unknown_frame_skipped (reg : Registry) (dec : List Nat → RawRecord)
    (fs1 fs2 : List (List Nat)) (bad : List Nat) (ft : Bool)
    (hfs : ∀ f ∈ fs1 ++ bad :: fs2, f.length < 4294967296)
    (hbad : (dec bad).payload = none ∨
      ∃ p, (dec bad).payload = some p ∧ reg.mem (lastComp p.typeUrl) = false) :
    parseMessages reg dec (encodeFrames (fs1 ++ bad :: fs2)) ft
      = parseMessages reg dec (encodeFrames (fs1 ++ fs2)) ft ∧
    ∃ ms, parseMessages reg dec (encodeFrames (fs1 ++ bad :: fs2)) ft
      = .ok ms := by
  have hpf : processFrame reg dec bad = none := by
    rcases hbad with hnone | ⟨p, hp, hm⟩
    · simp [processFrame, hnone]
    · by_cases hk : lastComp p.typeUrl = ""
      · simp [processFrame, hp, hk]
      · simp [processFrame, hp, hk, hm]
  have hfs1 : ∀ g ∈ fs1 ++ fs2, g.length < 4294967296 := by
    intro g hg
    refine hfs g ?_
    rcases List.mem_append.mp hg with hg | hg
    · exact List.mem_append_left _ hg
    · exact List.mem_append_right _ (List.mem_cons_of_mem bad hg)
  have h1 := parseMessages_frames reg dec (fs1 ++ bad :: fs2) [] ft (Or.inl rfl) hfs
  have h2 := parseMessages_frames reg dec (fs1 ++ fs2) [] ft (Or.inl rfl) hfs1
  rw [List.append_nil] at h1 h2
  have hfm : (fs1 ++ bad :: fs2).filterMap (processFrame reg dec)
      = (fs1 ++ fs2).filterMap (processFrame reg dec) := by
    rw [List.filterMap_append, List.filterMap_append, filterMap_cons_toList, hpf]
    simp
  rw [hfm] at h1
  exact ⟨h1.trans h2.symm, _, h1⟩

theorem binlog_unknown_frame_skipped_witness :
    ((dec₀ [2, 9]).payload = none ∨ ∃ p, (dec₀ [2, 9]).payload = some p ∧
      reg₀.mem (lastComp p.typeUrl) = false) ∧
    parseMessages reg₀ dec₀ (encodeFrames [[0, 7], [2, 9], [3, 4]]) true
      = parseMessages reg₀ dec₀ (encodeFrames [[0, 7], [3, 4]]) true := by
  refine ⟨Or.inr ⟨⟨"UnknownThing", [9]⟩, rfl, by decide⟩, ?_⟩
  exact (binlog_unknown_frame_skipped reg₀ dec₀ [[0, 7]] [[3, 4]] [2, 9] true
    (by decide) (Or.inr ⟨⟨"UnknownThing", [9]⟩, rfl, by decide⟩)).1

/-- What a successfully processed frame guarantees about nesting: only
`GetTelemetryRep` records carry `innerData`, and when they do it is exactly
one registry decode of the inner envelope (no deeper unwrapping). -/
theorem processFrame_some_inner {reg : Registry} {dec : List Nat → RawRecord}
    {frame : List Nat} {m : Message} (h : processFrame reg dec frame = some m) :
    (m.key ≠ "GetTelemetryRep" → m.innerData = none) ∧
    (m.key = "GetTelemetryRep" → ∃ ienv,
      m.data.payload = some ienv ∧ reg.mem (lastComp ienv.typeUrl) = true ∧
      m.innerData = some (reg.decode (lastComp ienv.typeUrl) ienv.value)) := by
  cases hp : (dec frame).payload with
  | none => simp [processFrame, hp] at h
  | some p =>
    by_cases hk : lastComp p.typeUrl = ""
    · simp [processFrame, hp, hk] at h
    · by_cases hm : reg.mem (lastComp p.typeUrl) = true
      · by_cases hkey : lastComp p.typeUrl = "GetTelemetryRep"
        · rw [hkey] at hk hm
          cases hip : (reg.decode "GetTelemetryRep" p.value).payload with
          | none =>
            simp [processFrame, hp, hk, hm, hkey, hip] at h
          | some ip =>
            by_cases hk2 : lastComp ip.typeUrl = ""
            · simp [processFrame, hp, hk, hm, hkey, hip, hk2] at h
            · by_cases hm2 : reg.mem (lastComp ip.typeUrl) = true
              · simp [processFrame, hp, hk, hm, hkey, hip, hk2, hm2,
                  -Message.mk.injEq] at h
                subst h
                exact ⟨fun hne => absurd rfl hne, fun _ => ⟨ip, hip, hm2, rfl⟩⟩
              · have hm2f : reg.mem (lastComp ip.typeUrl) = false := by
                  simpa using hm2
                simp [processFrame, hp, hk, hm, hkey, hip, hk2, hm2f] at h
        · simp [processFrame, hp, hk, hm, hkey, -Message.mk.injEq] at h
          subst h
          exact ⟨fun _ => rfl, fun hkm => absurd hkm hkey⟩
      · have hmf : reg.mem (lastComp p.typeUrl) = false := by simpa using hm
        simp [processFrame, hp, hk, hmf] at h

/-- Since `fixMessageTimes` only rewrites `time`, every output record corresponds
to an input record with the same `key`, `data` and `innerData`. -/
theorem mem_fixMessageTimes {m : Message} {l : List Message}
    (h : m ∈ fixMessageTimes l) :
    ∃ x ∈ l, m.key = x.key ∧ m.data = x.data ∧ m.innerData = x.innerData := by
  unfold fixMessageTimes at h
  cases hl : l.getLast? with
  | none =>
    rw [hl] at h
    exact ⟨m, h, rfl, rfl, rfl⟩
  | some last =>
    rw [hl] at h
    rcases List.mem_map.mp h with ⟨x, hx, rfl⟩
    exact ⟨x, hx, rfl, rfl, rfl⟩

/-- C9.  Binlog nested-envelope resolution: in any parse of a well-framed
buffer, a record whose key is not `GetTelemetryRep` has no `innerData`; a
`GetTelemetryRep` record's `innerData` is exactly one registry decode of the
inner envelope carried by its decoded value (whose key resolved in the
registry) — one level of nesting, never more; and a `GetTelemetryRep` frame
whose inner envelope key does not resolve is skipped entirely. -/
theorem binlog_nested_envelope (reg : Registry) (dec : List Nat → RawRecord)
    (fs : List (List Nat)) (ft : Bool) (ms : List Message)
    (hfs : ∀ f ∈ fs, f.length < 4294967296)
    (hparse : parseMessages reg dec (encodeFrames fs) ft = .ok ms) :
    (∀ m ∈ ms,
      (m.key ≠ "GetTelemetryRep" → m.innerData = none) ∧
      (m.key = "GetTelemetryRep" → ∃ ienv,
        m.data.payload = some ienv ∧ reg.mem (lastComp ienv.typeUrl) = true ∧
        m.innerData = some (reg.decode (lastComp ienv.typeUrl) ienv.value))) ∧
    (∀ f p ip, (dec f).payload = some p →
      lastComp p.typeUrl = "GetTelemetryRep" →
      (reg.decode "GetTelemetryRep" p.value).payload = some ip →
      reg.mem (lastComp ip.typeUrl) = false →
      processFrame reg dec f = none) := by
  constructor
  · have hchar := parseMessages_frames reg dec fs [] ft (Or.inl rfl) hfs
    rw [List.append_nil] at hchar
    rw [hparse] at hchar
    have hms : ms = if ft then fixMessageTimes (fs.filterMap (processFrame reg dec))
        else fs.filterMap (processFrame reg dec) := by
      exact (Except.ok.injEq _ _).mp hchar
    intro m hm
    rw [hms] at hm
    cases ft with
    | false =>
      simp only [if_false, Bool.false_eq_true, ite_false] at hm
      rcases List.mem_filterMap.mp hm with ⟨f, _, hpf⟩
      exact processFrame_some_inner hpf
    | true =>
      simp only [if_true] at hm
      rcases mem_fixMessageTimes hm with ⟨x, hx, hkey, hdata, hinner⟩
      rcases List.mem_filterMap.mp hx with ⟨f, _, hpf⟩
      have hx2 := processFrame_some_inner hpf
      rw [hkey, hdata, hinner]
      exact hx2
  · intro f p ip hp hkey hip hm2
    have hne : ¬(("GetTelemetryRep" : String) = "") := by decide
    by_cases hmem : reg.mem "GetTelemetryRep" = true
    · simp [processFrame, hp, hkey, hne, hmem, hip, hm2]
    · have hmf : reg.mem "GetTelemetryRep" = false := by simpa using hmem
      simp [processFrame, hp, hkey, hne, hmf]

theorem binlog_nested_envelope_witness :
    parseMessages reg₀ dec₀ (encodeFrames [[1, 0, 5]]) false = .ok [msgGTR] ∧
    (msgGTR.key = "GetTelemetryRep" → ∃ ienv,
      msgGTR.data.payload = some ienv ∧ reg₀.mem (lastComp ienv.typeUrl) = true ∧
      msgGTR.innerData = some (reg₀.decode (lastComp ienv.typeUrl) ienv.value)) := by
  have hp : parseMessages reg₀ dec₀ (encodeFrames [[1, 0, 5]]) false
      = .ok [msgGTR] := by decide
  exact ⟨hp, fun hk =>
    ((binlog_nested_envelope reg₀ dec₀ [[1, 0, 5]] false [msgGTR]
      (by decide) hp).1 msgGTR (by simp)).2 hk⟩

end Blueye
